import Mathlib

/-!
Shallow embedding of `numan.py`, a small numerical-methods module:
fixed-point iteration (`fp`), Newton-Raphson (`nr`), the rectangle rules
(`lr`, `rr`, `mr`), the trapezoidal rule (`t`), Simpson's rule (`s`) and a
forward-Euler stepper (`e`).  Real arithmetic is modelled exactly over `ℚ`;
the unbounded `while` loops are modelled with an explicit fuel parameter
(`none` = fuel exhausted); the Python `ZeroDivisionError` raised by a zero
derivative is modelled by `Except`.
-/

namespace Numan

/-- One row of the trace table `spec_tab` built by the root finders: the
Python list mixes a string header row with numeric triples, so a row is a
sum of the two shapes. -/
inductive Row where
  | header (c1 c2 c3 : String)
  | entry (idx : ℕ) (xn res : ℚ)
  deriving DecidableEq

/-- The fixed header row `["n", "xn", "|f(xn)|"]` both root finders put first. -/
def headerRow : Row := Row.header "n" "xn" "|f(xn)|"

/-- Step size `h = (b - a) / n` shared by the quadrature rules and `e`. -/
def qh (a b : ℚ) (n : ℕ) : ℚ := (b - a) / n

/-- Rows appended by the bounded branch of `fp` (`for k in range(0, n)`):
each pass does `sol = m(sol)` then appends `[count, sol, abs(m(sol))]`;
`count` is never incremented in this branch. -/
def fpBounded (m : ℚ → ℚ) (sol : ℚ) (count : ℕ) : ℕ → List Row
  | 0 => []
  | steps + 1 => Row.entry count (m sol) |m (m sol)| :: fpBounded m (m sol) count steps

/-- Rows appended by the unbounded branch of `fp`
(`while abs(m(sol)-sol) >= lim`): each pass does `sol = m(sol)`,
`count += 1`, then appends `[count, sol, abs(m(sol))]`.  The fuel bounds
how many passes are modelled; `none` means the loop did not exit in time. -/
def fpUnboundedAux (m : ℚ → ℚ) (lim : ℚ) : ℕ → ℚ → ℕ → Option (List Row)
  | 0, sol, _ => if |m sol - sol| < lim then some [] else none
  | fuel + 1, sol, count =>
    if |m sol - sol| < lim then some []
    else
      (fpUnboundedAux m lim fuel (m sol) (count + 1)).map
        (fun l => Row.entry (count + 1) (m sol) |m (m sol)| :: l)

/-- `fp(m, x0, n=0, lim=0.001)`: the trace starts with the header row and
the step-0 record `[0, x0, abs(m(x0)-x0)]`; `n == 0` selects the
tolerance-driven loop, otherwise the loop runs exactly `n` times. -/
def fp (m : ℚ → ℚ) (x0 : ℚ) (n : ℕ) (lim : ℚ) (fuel : ℕ) : Option (List Row) :=
  if n = 0 then
    (fpUnboundedAux m lim fuel x0 0).map
      (fun l => headerRow :: Row.entry 0 x0 |m x0 - x0| :: l)
  else some (headerRow :: Row.entry 0 x0 |m x0 - x0| :: fpBounded m x0 0 n)

/-- Error raised by Python when `m(sol)/dm(sol)` divides by zero. -/
inductive NRError where
  | divByZero
  deriving DecidableEq

/-- One Newton-Raphson update `sol - m(sol)/dm(sol)`, failing exactly when
`dm(sol) == 0` (Python raises `ZeroDivisionError` there). -/
def nrStep (m dm : ℚ → ℚ) (sol : ℚ) : Except NRError ℚ :=
  if dm sol = 0 then Except.error NRError.divByZero
  else Except.ok (sol - m sol / dm sol)

/-- The `k`-th Newton-Raphson iterate starting from `sol`, propagating a
division-by-zero met along the way. -/
def nrIter (m dm : ℚ → ℚ) : ℕ → ℚ → Except NRError ℚ
  | 0, sol => Except.ok sol
  | k + 1, sol =>
    match nrStep m dm sol with
    | Except.error err => Except.error err
    | Except.ok sol' => nrIter m dm k sol'

/-- Rows appended by the bounded branch of `nr` (`for k in range(1, n+1)`):
each pass does `sol = sol - m(sol)/dm(sol)` then appends
`[k, sol, abs(m(sol))]`; `k` starts at 1. -/
def nrBoundedAux (m dm : ℚ → ℚ) (sol : ℚ) (k : ℕ) : ℕ → Except NRError (List Row)
  | 0 => Except.ok []
  | steps + 1 =>
    match nrStep m dm sol with
    | Except.error err => Except.error err
    | Except.ok sol' =>
      (nrBoundedAux m dm sol' (k + 1) steps).map
        (fun l => Row.entry k sol' |m sol'| :: l)

/-- Rows appended by the unbounded branch of `nr`
(`while abs(m(sol)) >= lim`): each pass updates `sol`, increments `count`,
and appends `[count, sol, abs(m(sol))]`; fuel as in `fpUnboundedAux`. -/
def nrUnboundedAux (m dm : ℚ → ℚ) (lim : ℚ) :
    ℕ → ℚ → ℕ → Option (Except NRError (List Row))
  | 0, sol, _ => if |m sol| < lim then some (Except.ok []) else none
  | fuel + 1, sol, count =>
    if |m sol| < lim then some (Except.ok [])
    else
      match nrStep m dm sol with
      | Except.error err => some (Except.error err)
      | Except.ok sol' =>
        (nrUnboundedAux m dm lim fuel sol' (count + 1)).map
          (fun r => r.map (fun l => Row.entry (count + 1) sol' |m sol'| :: l))

/-- `nr(m, dm, x0, n=0, lim=0.001)`: trace starts with the header row and
`[0, x0, abs(m(x0))]`; `n == 0` selects the tolerance-driven loop,
otherwise exactly `n` passes run with indices `1..n`. -/
def nr (m dm : ℚ → ℚ) (x0 : ℚ) (n : ℕ) (lim : ℚ) (fuel : ℕ) :
    Option (Except NRError (List Row)) :=
  if n = 0 then
    (nrUnboundedAux m dm lim fuel x0 0).map
      (fun r => r.map (fun l => headerRow :: Row.entry 0 x0 |m x0| :: l))
  else
    some ((nrBoundedAux m dm x0 1 n).map
      (fun l => headerRow :: Row.entry 0 x0 |m x0| :: l))

/-- `lr(m, a, b, n=100)`: left rectangles, `sum of y[i]*h for i in range(0, n)`
over the points `x[i] = a + i*h`. -/
def lr (m : ℚ → ℚ) (a b : ℚ) (n : ℕ) : ℚ :=
  ∑ i in Finset.range n, m (a + (i : ℚ) * qh a b n) * qh a b n

/-- `rr(m, a, b, n=100)`: right rectangles, `sum of y[i]*h for i in range(1, n+1)`. -/
def rr (m : ℚ → ℚ) (a b : ℚ) (n : ℕ) : ℚ :=
  ∑ i in Finset.range n, m (a + ((i : ℚ) + 1) * qh a b n) * qh a b n

/-- `mr(m, a, b, n=100)`: midpoint rectangles over `x_mid[i] = (x[i]+x[i+1])/2`. -/
def mr (m : ℚ → ℚ) (a b : ℚ) (n : ℕ) : ℚ :=
  ∑ i in Finset.range n,
    m (((a + (i : ℚ) * qh a b n) + (a + ((i : ℚ) + 1) * qh a b n)) / 2) * qh a b n

/-- `t(m, a, b, n=100)`: trapezoids, `sum of h*0.5*(y[i]+y[i-1]) for i in range(1, n+1)`. -/
def t (m : ℚ → ℚ) (a b : ℚ) (n : ℕ) : ℚ :=
  ∑ i in Finset.range n,
    qh a b n * (1 / 2) * (m (a + ((i : ℚ) + 1) * qh a b n) + m (a + (i : ℚ) * qh a b n))

/-- The string `s` returns when `n` is odd. -/
def simpsonErr : String := "Error: n must be an even number for Simpson's rule"

/-- `s(m, a, b, n=100)`: Simpson's rule.  When `n % 2 == 0` it sums, for
`i in range(1, n//2 + 1)`, the term `(h/3)*(y[2i-2] + 4*y[2i-1] + y[2i])`
(indices shifted here to `i in range(n/2)`); when `n` is odd it returns the
error string instead of a number. -/
def s (m : ℚ → ℚ) (a b : ℚ) (n : ℕ) : Except String ℚ :=
  if n % 2 = 0 then
    Except.ok (∑ i in Finset.range (n / 2),
      (qh a b n / 3) *
        (m (a + (2 * (i : ℚ)) * qh a b n) + 4 * m (a + (2 * (i : ℚ) + 1) * qh a b n) +
          m (a + (2 * (i : ℚ) + 2) * qh a b n)))
  else Except.error simpsonErr

/-- `e(m, a, b, x0, n=100)`: forward Euler, `n` passes of `sol = sol + h*m(sol)`. -/
def e (m : ℚ → ℚ) (a b x0 : ℚ) (n : ℕ) : ℚ :=
  (List.range n).foldl (fun sol _ => sol + qh a b n * m sol) x0

/-- Recurrence the spec words Euler with: `y_0 = x0`, `y_next = y + h*m(y)`. -/
def eulerRec (m : ℚ → ℚ) (h x0 : ℚ) : ℕ → ℚ
  | 0 => x0
  | k + 1 => eulerRec m h x0 k + h * m (eulerRec m h x0 k)

/-- Simpson sum as the spec words it: pairs `i = 1 .. n/2`, each contributing
`(h/3) * (y_at(2i-2) + 4*y_at(2i-1) + y_at(2i))`. -/
def simpsonPairsSpec (m : ℚ → ℚ) (a b : ℚ) (n : ℕ) : ℚ :=
  ∑ i in Finset.Icc 1 (n / 2),
    (qh a b n / 3) *
      (m (a + (2 * (i : ℚ) - 2) * qh a b n) + 4 * m (a + (2 * (i : ℚ) - 1) * qh a b n) +
        m (a + 2 * (i : ℚ) * qh a b n))

/-- C5: for every integrand, bounds and positive subinterval count, the
trapezoidal rule equals the average of the left and right rectangle rules. -/
theorem C5_trapezoid_average (m : ℚ → ℚ) (a b : ℚ) (n : ℕ) (_hn : 0 < n) :
    t m a b n = (lr m a b n + rr m a b n) / 2 := by
  simp only [t, lr, rr]
  rw [← Finset.sum_add_distrib, Finset.sum_div]
  exact Finset.sum_congr rfl fun i _ => by ring

/-- Witness for C5 at `m = id`, `a = 0`, `b = 1`, `n = 2`. -/
theorem C5_witness :
    0 < 2 ∧ t (fun x => x) 0 1 2 = (lr (fun x => x) 0 1 2 + rr (fun x => x) 0 1 2) / 2 :=
  ⟨by norm_num, C5_trapezoid_average (fun x => x) 0 1 2 (by norm_num)⟩

/-- C10: reversing the interval orientation and exchanging the endpoint rules
negates the estimate: `lr m a b n = - rr m b a n` for every `n > 0`. -/
theorem C10_orientation_antisymmetry (m : ℚ → ℚ) (a b : ℚ) (n : ℕ) (hn : 0 < n) :
    lr m a b n = - rr m b a n := by
  have hq : (n : ℚ) ≠ 0 := Nat.cast_ne_zero.mpr hn.ne'
  have hb : (n : ℚ) * qh a b n = b - a := by
    unfold qh; field_simp
  simp only [lr, rr]
  rw [← Finset.sum_range_reflect (fun i => m (a + (i : ℚ) * qh a b n) * qh a b n) n]
  rw [← Finset.sum_neg_distrib]
  refine Finset.sum_congr rfl fun i hi => ?_
  have hi' : i < n := Finset.mem_range.mp hi
  have hq2 : qh b a n = - qh a b n := by unfold qh; ring
  have hc : ((n - 1 - i : ℕ) : ℚ) = (n : ℚ) - 1 - (i : ℚ) := by
    rw [Nat.sub_sub, Nat.cast_sub (by omega)]
    push_cast
    ring
  rw [hq2, mul_neg, neg_neg, hc]
  have harg : a + ((n : ℚ) - 1 - (i : ℚ)) * qh a b n = b + ((i : ℚ) + 1) * -qh a b n := by
    linear_combination hb
  rw [harg]

/-- Witness for C10 at `m = id`, `a = 0`, `b = 1`, `n = 2`. -/
theorem C10_witness :
    0 < 2 ∧ lr (fun x => x) 0 1 2 = - rr (fun x => x) 1 0 2 :=
  ⟨by norm_num, C10_orientation_antisymmetry (fun x => x) 0 1 2 (by norm_num)⟩

/-- C3 counterexample: Simpson's rule at the odd count `n = 1` returns the
error string, not the numeric value `b - a`, so the claim fails for `s`. -/
theorem C3_counterexample :
    s (fun _ => (1 : ℚ)) 0 1 1 = Except.error simpsonErr ∧
    Except.error simpsonErr ≠ Except.ok ((1 : ℚ) - 0) := by
  refine ⟨by norm_num [s], fun h => ?_⟩
  exact Except.noConfusion h

/-- C3 (amended): integrating the constant function 1 over `[a, b]` with any
`n > 0` yields exactly `b - a` for the four always-numeric rules, and for
Simpson's rule whenever `n` is even. -/
theorem C3_const_one_exact (a b : ℚ) (n : ℕ) (hn : 0 < n) :
    lr (fun _ => 1) a b n = b - a ∧ rr (fun _ => 1) a b n = b - a ∧
    mr (fun _ => 1) a b n = b - a ∧ t (fun _ => 1) a b n = b - a ∧
    (n % 2 = 0 → s (fun _ => 1) a b n = Except.ok (b - a)) := by
  have hq : (n : ℚ) ≠ 0 := Nat.cast_ne_zero.mpr hn.ne'
  have hsum : (n : ℚ) * qh a b n = b - a := by
    unfold qh; field_simp
  refine ⟨?_, ?_, ?_, ?_, ?_⟩
  · rw [lr, Finset.sum_congr rfl fun i _ => one_mul (qh a b n), Finset.sum_const,
      Finset.card_range, nsmul_eq_mul, hsum]
  · rw [rr, Finset.sum_congr rfl fun i _ => one_mul (qh a b n), Finset.sum_const,
      Finset.card_range, nsmul_eq_mul, hsum]
  · rw [mr, Finset.sum_congr rfl fun i _ => one_mul (qh a b n), Finset.sum_const,
      Finset.card_range, nsmul_eq_mul, hsum]
  · rw [t, Finset.sum_congr rfl fun i _ => (by ring :
      qh a b n * (1 / 2) * ((1 : ℚ) + 1) = qh a b n), Finset.sum_const,
      Finset.card_range, nsmul_eq_mul, hsum]
  · intro he
    have h2 : ((n / 2 : ℕ) : ℚ) * 2 = (n : ℚ) := by
      rw [show ((2 : ℚ) = ((2 : ℕ) : ℚ)) from by norm_num, ← Nat.cast_mul,
        Nat.div_mul_cancel (Nat.dvd_of_mod_eq_zero he)]
    rw [s, if_pos he]
    congr 1
    rw [Finset.sum_congr rfl fun i _ => (by ring :
      qh a b n / 3 * ((1 : ℚ) + 4 * 1 + 1) = 2 * qh a b n), Finset.sum_const,
      Finset.card_range, nsmul_eq_mul, ← mul_assoc, h2, hsum]

/-- Witness for C3 at `a = 0`, `b = 5`, `n = 2`. -/
theorem C3_witness :
    0 < 2 ∧ lr (fun _ => 1) 0 5 2 = 5 - 0 ∧ rr (fun _ => 1) 0 5 2 = 5 - 0 ∧
    mr (fun _ => 1) 0 5 2 = 5 - 0 ∧ t (fun _ => 1) 0 5 2 = 5 - 0 ∧
    s (fun _ => 1) 0 5 2 = Except.ok (5 - 0) := by
  have h := C3_const_one_exact 0 5 2 (by norm_num)
  exact ⟨by norm_num, h.1, h.2.1, h.2.2.1, h.2.2.2.1, h.2.2.2.2 rfl⟩

/-- C2: Simpson's rule returns the descriptive error value exactly when `n` is
odd; when `n` is even it returns the sum over the `n/2` subinterval pairs of
`(h/3) * (y_at(2i-2) + 4*y_at(2i-1) + y_at(2i))`; in particular `n = 3` yields
the error value. -/
theorem C2_simpson_parity (m : ℚ → ℚ) (a b : ℚ) (n : ℕ) (_hn : 0 < n) :
    ((∃ msg, s m a b n = Except.error msg) ↔ n % 2 = 1) ∧
    (n % 2 = 0 → s m a b n = Except.ok (simpsonPairsSpec m a b n)) ∧
    s m a b 3 = Except.error simpsonErr := by
  have heven : ∀ he : n % 2 = 0, s m a b n = Except.ok (simpsonPairsSpec m a b n) := by
    intro he
    rw [s, if_pos he, simpsonPairsSpec]
    congr 1
    rw [← Nat.Ico_succ_right, Finset.sum_Ico_eq_sum_range]
    refine Finset.sum_congr (by norm_num) fun i _ => ?_
    push_cast
    ring_nf
  refine ⟨?_, heven, by norm_num [s, simpsonErr]⟩
  rcases Nat.mod_two_eq_zero_or_one n with he | ho
  · rw [heven he]
    simp only [he]
    exact ⟨fun ⟨msg, hmsg⟩ => Except.noConfusion hmsg, fun h => by omega⟩
  · rw [s, if_neg (by omega)]
    simp only [ho]
    exact ⟨fun _ => trivial, fun _ => ⟨simpsonErr, rfl⟩⟩

/-- Witness for C2 at `m = id`, `a = 0`, `b = 1`, `n = 2`. -/
theorem C2_witness :
    0 < 2 ∧ (((∃ msg, s (fun x => x) 0 1 2 = Except.error msg) ↔ 2 % 2 = 1) ∧
      (2 % 2 = 0 → s (fun x => x) 0 1 2 = Except.ok (simpsonPairsSpec (fun x => x) 0 1 2)) ∧
      s (fun x => x) 0 1 3 = Except.error simpsonErr) :=
  ⟨by norm_num, C2_simpson_parity (fun x => x) 0 1 2 (by norm_num)⟩

/-- The Euler loop of `e` computes the recurrence `eulerRec` step by step. -/
lemma e_foldl (m : ℚ → ℚ) (h x0 : ℚ) :
    ∀ n, (List.range n).foldl (fun sol _ => sol + h * m sol) x0 = eulerRec m h x0 n := by
  intro n
  induction n with
  | zero => rfl
  | succ k ih =>
    rw [List.range_succ, List.foldl_append, ih]
    rfl

/-- C6: `e` returns exactly the `n`-th iterate of the recurrence
`y_0 = x0`, `y_next = y + h * m(y)` with `h = (b - a) / n`, and nothing else
(a single scalar, no trace). -/
theorem C6_euler_recurrence (m : ℚ → ℚ) (a b x0 : ℚ) (n : ℕ) (_hn : 0 < n) :
    e m a b x0 n = eulerRec m ((b - a) / n) x0 n :=
  e_foldl m (qh a b n) x0 n

/-- Witness for C6 at `m = id`, `a = 0`, `b = 1`, `x0 = 1`, `n = 2`. -/
theorem C6_witness :
    0 < 2 ∧ e (fun x => x) 0 1 1 2 = eulerRec (fun x => x) ((1 - 0) / 2) 1 2 :=
  ⟨by norm_num, C6_euler_recurrence (fun x => x) 0 1 1 2 (by norm_num)⟩

/-- Reaching a zero derivative within the bounded Newton loop makes the whole
bounded trace an error. -/
lemma nrBoundedAux_err (m dm : ℚ → ℚ) :
    ∀ k sol xk, nrIter m dm k sol = Except.ok xk → dm xk = 0 →
      ∀ n j, k < n → nrBoundedAux m dm sol j n = Except.error NRError.divByZero := by
  intro k
  induction k with
  | zero =>
    intro sol xk hit hdm n j hkn
    obtain ⟨n', rfl⟩ : ∃ n', n = n' + 1 := ⟨n - 1, by omega⟩
    cases hit
    rw [nrBoundedAux, nrStep, if_pos hdm]
  | succ k ih =>
    intro sol xk hit hdm n j hkn
    obtain ⟨n', rfl⟩ : ∃ n', n = n' + 1 := ⟨n - 1, by omega⟩
    rw [nrIter] at hit
    rcases hstep : nrStep m dm sol with err | sol'
    · rw [hstep] at hit
      exact Except.noConfusion hit
    · rw [hstep] at hit
      replace hit : nrIter m dm k sol' = Except.ok xk := hit
      rw [nrBoundedAux, hstep]
      show Except.map (fun l => Row.entry j sol' |m sol'| :: l)
        (nrBoundedAux m dm sol' (j + 1) n') = Except.error NRError.divByZero
      rw [ih sol' xk hit hdm n' (j + 1) (by omega)]
      rfl

/-- Reaching a zero derivative within the unbounded Newton loop, before the
stopping condition holds, makes the whole unbounded trace an error, given
enough fuel to get there. -/
lemma nrUnboundedAux_err (m dm : ℚ → ℚ) (lim : ℚ) :
    ∀ k sol xk, nrIter m dm k sol = Except.ok xk → dm xk = 0 →
      (∀ j xj, j ≤ k → nrIter m dm j sol = Except.ok xj → lim ≤ |m xj|) →
      ∀ fuel count, k < fuel →
        nrUnboundedAux m dm lim fuel sol count = some (Except.error NRError.divByZero) := by
  intro k
  induction k with
  | zero =>
    intro sol xk hit hdm hres fuel count hkf
    obtain ⟨f, rfl⟩ : ∃ f, fuel = f + 1 := ⟨fuel - 1, by omega⟩
    rw [nrIter] at hit
    injection hit with h
    subst h
    have hge : ¬ |m sol| < lim := not_lt.mpr (hres 0 sol (le_refl 0) rfl)
    rw [nrUnboundedAux, if_neg hge, nrStep, if_pos hdm]
  | succ k ih =>
    intro sol xk hit hdm hres fuel count hkf
    obtain ⟨f, rfl⟩ : ∃ f, fuel = f + 1 := ⟨fuel - 1, by omega⟩
    rw [nrIter] at hit
    rcases hstep : nrStep m dm sol with err | sol'
    · rw [hstep] at hit
      exact Except.noConfusion hit
    · rw [hstep] at hit
      replace hit : nrIter m dm k sol' = Except.ok xk := hit
      have hge : ¬ |m sol| < lim := not_lt.mpr (hres 0 sol (by omega) rfl)
      have hres' : ∀ j xj, j ≤ k → nrIter m dm j sol' = Except.ok xj → lim ≤ |m xj| := by
        intro j xj hj hjit
        refine hres (j + 1) xj (by omega) ?_
        show (match nrStep m dm sol with
          | Except.error err => Except.error err
          | Except.ok sol' => nrIter m dm j sol') = Except.ok xj
        rw [hstep]
        exact hjit
      rw [nrUnboundedAux, if_neg hge, hstep]
      show Option.map (fun r => Except.map (fun l => Row.entry (count + 1) sol' |m sol'| :: l) r)
        (nrUnboundedAux m dm lim f sol' (count + 1)) = some (Except.error NRError.divByZero)
      rw [ih sol' xk hit hdm hres' f (count + 1) (by omega)]
      rfl

/-- C4: `nr` applies the update `x - m(x)/dm(x)`, and a zero derivative at any
iterate reached before stopping surfaces as a division-by-zero error in the
returned value, in the bounded mode and in the (fuel-modelled) unbounded mode
alike. -/
theorem C4_newton_divzero (m dm : ℚ → ℚ) (x0 lim : ℚ) :
    (∀ x, dm x ≠ 0 → nrStep m dm x = Except.ok (x - m x / dm x)) ∧
    (∀ n k xk, k < n → nrIter m dm k x0 = Except.ok xk → dm xk = 0 →
      ∀ fuel, nr m dm x0 n lim fuel = some (Except.error NRError.divByZero)) ∧
    (∀ k xk fuel, k < fuel → nrIter m dm k x0 = Except.ok xk → dm xk = 0 →
      (∀ j xj, j ≤ k → nrIter m dm j x0 = Except.ok xj → lim ≤ |m xj|) →
      nr m dm x0 0 lim fuel = some (Except.error NRError.divByZero)) := by
  refine ⟨fun x hx => by rw [nrStep, if_neg hx], ?_, ?_⟩
  · intro n k xk hkn hit hdm fuel
    rw [nr, if_neg (by omega), nrBoundedAux_err m dm k x0 xk hit hdm n 1 hkn]
    rfl
  · intro k xk fuel hkf hit hdm hres
    rw [nr, if_pos rfl, nrUnboundedAux_err m dm lim k x0 xk hit hdm hres fuel 0 hkf]
    rfl

/-- Witness for C4: with `m = id` and the constantly-zero derivative, both the
bounded call (`n = 1`) and the unbounded call (`n = 0`) fail with the
division-by-zero error. -/
theorem C4_witness :
    nr (fun x => x) (fun _ => 0) 1 1 (1 / 1000) 1 = some (Except.error NRError.divByZero) ∧
    nr (fun x => x) (fun _ => 0) 1 0 (1 / 1000) 1 = some (Except.error NRError.divByZero) := by
  constructor
  · exact (C4_newton_divzero (fun x => x) (fun _ => 0) 1 (1 / 1000)).2.1 1 0 1
      (by norm_num) rfl rfl 1
  · refine (C4_newton_divzero (fun x => x) (fun _ => 0) 1 (1 / 1000)).2.2 0 1 1
      (by norm_num) rfl rfl ?_
    intro j xj hj hjit
    interval_cases j
    cases hjit
    norm_num

/-- Every row the bounded `fp` loop appends stores `abs(m(sol))` as residual. -/
lemma fpBounded_residuals (m : ℚ → ℚ) :
    ∀ steps sol count k x r, Row.entry k x r ∈ fpBounded m sol count steps → r = |m x| := by
  intro steps
  induction steps with
  | zero =>
    intro sol count k x r h
    simp [fpBounded] at h
  | succ steps ih =>
    intro sol count k x r h
    simp only [fpBounded, List.mem_cons, Row.entry.injEq] at h
    rcases h with ⟨rfl, rfl, rfl⟩ | h
    · rfl
    · exact ih (m sol) count k x r h

/-- Every row the unbounded `fp` loop appends stores `abs(m(sol))` as residual. -/
lemma fpUnboundedAux_residuals (m : ℚ → ℚ) (lim : ℚ) :
    ∀ fuel sol count l, fpUnboundedAux m lim fuel sol count = some l →
      ∀ k x r, Row.entry k x r ∈ l → r = |m x| := by
  intro fuel
  induction fuel with
  | zero =>
    intro sol count l hl k x r hm
    rw [fpUnboundedAux] at hl
    split at hl
    · cases hl
      simp at hm
    · cases hl
  | succ fuel ih =>
    intro sol count l hl k x r hm
    rw [fpUnboundedAux] at hl
    split at hl
    · cases hl
      simp at hm
    · rcases Option.map_eq_some'.mp hl with ⟨l', hl', hfl⟩
      subst hfl
      simp only [List.mem_cons, Row.entry.injEq] at hm
      rcases hm with ⟨rfl, rfl, rfl⟩ | hm
      · rfl
      · exact ih (m sol) (count + 1) l' hl' k x r hm

/-- C1 counterexample: in `fp` with `m(x) = x + 1`, `x0 = 0`, `n = 1`, the row
appended by the loop is `(0, 1, 2)`, whose residual 2 differs from the absolute
displacement `|m(1) - 1| = 1` the claim prescribes. -/
theorem C1_counterexample :
    fp (fun x => x + 1) 0 1 (1 / 1000) 0 =
      some [headerRow, Row.entry 0 0 1, Row.entry 0 1 2] ∧
    Row.entry 0 1 2 ∈ [headerRow, Row.entry 0 0 1, Row.entry 0 1 2] ∧
    (2 : ℚ) ≠ |(fun x : ℚ => x + 1) 1 - 1| := by
  refine ⟨by norm_num [fp, fpBounded, abs_of_nonneg], by simp, by norm_num⟩

/-- C1 (amended): in every trace `fp` returns, the step-0 record stores the
displacement `|m(x0) - x0|`, while every row appended by the iteration loop
(bounded or unbounded) stores `|m(x_k)|`, the magnitude of the map value at the
row's approximation, not the displacement. -/
theorem C1_trace_residuals (m : ℚ → ℚ) (x0 : ℚ) (n : ℕ) (lim : ℚ) (fuel : ℕ)
    (tr : List Row) (htr : fp m x0 n lim fuel = some tr) :
    tr.take 2 = [headerRow, Row.entry 0 x0 |m x0 - x0|] ∧
    ∀ k x r, Row.entry k x r ∈ tr.drop 2 → r = |m x| := by
  rw [fp] at htr
  by_cases hn : n = 0
  · rw [if_pos hn] at htr
    rcases Option.map_eq_some'.mp htr with ⟨l, hl, hfl⟩
    subst hfl
    exact ⟨rfl, fun k x r hm => fpUnboundedAux_residuals m lim fuel x0 0 l hl k x r hm⟩
  · rw [if_neg hn] at htr
    injection htr with h
    subst h
    exact ⟨rfl, fun k x r hm => fpBounded_residuals m n x0 0 k x r hm⟩

/-- Concrete one-step trace used to witness C1. -/
def fpC1trace : List Row := [headerRow, Row.entry 0 0 1, Row.entry 0 1 2]

/-- Witness for C1 at `m(x) = x + 1`, `x0 = 0`, `n = 1`. -/
theorem C1_witness :
    fp (fun x => x + 1) 0 1 (1 / 1000) 0 = some fpC1trace ∧
    (fpC1trace.take 2 = [headerRow, Row.entry 0 0 |(fun x : ℚ => x + 1) 0 - 0|] ∧
     ∀ k x r, Row.entry k x r ∈ fpC1trace.drop 2 → r = |(fun x : ℚ => x + 1) x|) := by
  have h0 : fp (fun x => x + 1) 0 1 (1 / 1000) 0 = some fpC1trace := by
    norm_num [fp, fpBounded, fpC1trace, abs_of_nonneg]
  exact ⟨h0, C1_trace_residuals (fun x => x + 1) 0 1 (1 / 1000) 0 fpC1trace h0⟩

/-- C8: evaluating the bounded mode shows the bug: `fp` with `n = 2` appends
its two iteration rows with step index 0 both times (`count` is never
incremented in that branch), instead of the indices 1 and 2 the spec's trace
format prescribes. -/
theorem C8_bounded_indices_zero :
    fp (fun x => x + 1) 0 2 (1 / 1000) 0 =
      some [headerRow, Row.entry 0 0 1, Row.entry 0 1 2, Row.entry 0 2 3] ∧
    (0 : ℕ) ≠ 1 ∧ (0 : ℕ) ≠ 2 := by
  refine ⟨by norm_num [fp, fpBounded, abs_of_nonneg], by norm_num, by norm_num⟩

/-- Rational bracketing of `Real.sqrt 2` used for the convergence claims. -/
lemma sqrt_two_bounds :
    (141421 / 100000 : ℝ) < Real.sqrt 2 ∧ Real.sqrt 2 < 141422 / 100000 := by
  constructor
  · rw [Real.lt_sqrt (by norm_num)]
    norm_num
  · rw [Real.sqrt_lt' (by norm_num)]
    norm_num

/-- Exact trace of `fp(m = (x + 2/x)/2, x0 = 1, lim = 1/10000)` (fuel 4). -/
def fpC9trace : List Row :=
  [headerRow, Row.entry 0 1 (1 / 2), Row.entry 1 (3 / 2) (17 / 12),
   Row.entry 2 (17 / 12) (577 / 408), Row.entry 3 (577 / 408) (665857 / 470832)]

/-- C9 counterexample: the unbounded Babylonian run terminates, but the
residual value stored in its last trace row is `|m(577/408)| = 665857/470832`,
which is not below the tolerance `1/10000` (the loop stops on the displacement
`|m(x) - x|`, yet the stored column holds `|m(x)|`). -/
theorem C9_counterexample :
    fp (fun x => (x + 2 / x) / 2) 1 0 (1 / 10000) 4 = some fpC9trace ∧
    fpC9trace.getLast? = some (Row.entry 3 (577 / 408) (665857 / 470832)) ∧
    ¬ ((665857 / 470832 : ℚ) < 1 / 10000) := by
  refine ⟨?_, rfl, by norm_num⟩
  norm_num [fp, fpUnboundedAux, fpC9trace, abs_of_nonneg]

/-- C9 (amended): `fp` with `m(x) = (x + 2/x)/2`, `x0 = 1`, `lim = 1/10000`
terminates with the trace `fpC9trace`; the final approximation `577/408` is
within `1/10000` of `sqrt 2`, and the displacement `|m(x) - x|` at it is below
the tolerance — but the residual column of the last row holds `|m(577/408)|`,
which is near `sqrt 2`, not below `1/10000`. -/
theorem C9_babylonian_trace :
    fp (fun x => (x + 2 / x) / 2) 1 0 (1 / 10000) 4 = some fpC9trace ∧
    |(fun x : ℚ => (x + 2 / x) / 2) (577 / 408) - 577 / 408| < 1 / 10000 ∧
    |((577 / 408 : ℚ) : ℝ) - Real.sqrt 2| < 1 / 10000 := by
  refine ⟨by norm_num [fp, fpUnboundedAux, fpC9trace, abs_of_nonneg], by
    norm_num [abs_of_nonneg], ?_⟩
  have hb := sqrt_two_bounds
  have hc : ((577 / 408 : ℚ) : ℝ) = 577 / 408 := by norm_num
  rw [hc, abs_sub_lt_iff]
  constructor <;> nlinarith [hb.1, hb.2]

/-- The integrand of the C7 run, `m(x) = x^2 - 2`. -/
def mC7 : ℚ → ℚ := fun x => x ^ 2 - 2

/-- The derivative of the C7 run, `dm(x) = 2x`. -/
def dmC7 : ℚ → ℚ := fun x => 2 * x

/-- Exact trace of `nr(m = x^2-2, dm = 2x, x0 = 1, n = 5)`. -/
def nrC7trace : List Row :=
  [headerRow, Row.entry 0 1 1, Row.entry 1 (3 / 2) (1 / 4),
   Row.entry 2 (17 / 12) (1 / 144), Row.entry 3 (577 / 408) (1 / 166464),
   Row.entry 4 (665857 / 470832) (1 / 221682772224),
   Row.entry 5 (886731088897 / 627013566048) (1 / 627013566048 ^ 2)]

/-- C7 counterexample: the trace of `nr(x^2-2, 2x, 1, n=5)` has 7 rows
(header, step-0 record, and 5 iteration rows), not the 6 rows the claim
states. -/
theorem C7_counterexample :
    (nr mC7 dmC7 1 5 (1 / 1000) 0).map (Except.map List.length) =
      some (Except.ok 7) ∧ (7 : ℕ) ≠ 6 := by
  refine ⟨?_, by norm_num⟩
  norm_num [nr, nrBoundedAux, nrStep, Except.map, mC7, dmC7, abs_of_nonneg]

/-- C7 (amended): `nr(m = x^2-2, dm = 2x, x0 = 1, n = 5)` returns a trace of
exactly 7 rows — the header, the step-0 record and 5 iteration rows — and the
approximation in the final row is within `1e-4` of `sqrt 2`. -/
theorem C7_newton_sqrt2 :
    nr mC7 dmC7 1 5 (1 / 1000) 0 = some (Except.ok nrC7trace) ∧
    nrC7trace.length = 7 ∧
    nrC7trace.getLast? = some (Row.entry 5 (886731088897 / 627013566048)
      (1 / 627013566048 ^ 2)) ∧
    |((886731088897 / 627013566048 : ℚ) : ℝ) - Real.sqrt 2| < 1 / 10000 := by
  refine ⟨?_, rfl, rfl, ?_⟩
  · norm_num [nr, nrBoundedAux, nrStep, Except.map, nrC7trace, mC7, dmC7, abs_of_nonneg]
  · have hb := sqrt_two_bounds
    have hc : ((886731088897 / 627013566048 : ℚ) : ℝ) = 886731088897 / 627013566048 := by
      norm_num
    rw [hc, abs_sub_lt_iff]
    constructor <;> nlinarith [hb.1, hb.2]

end Numan
